import Mathlib

/-!
Verification of the cleaning/categorization pipeline of `web_scrapping/cleaner.py`.

The Python source is shallowly embedded: strings become `String`/`List Char`,
`pandas` rows become association lists from column names to Python values
(`PyVal`), the regex substitutions of `clean_text` become executable scans
over character lists, and the DataFrame steps of `clean_dataset` become list
transformations.
-/

namespace Cleaner

/-! ## Definitions (shallow embedding of `cleaner.py`) -/

/-- Python's regex `\w` word-character class (letters, digits, underscore),
used by the pattern `&\w+;` in `clean_text`. -/
def isWord (c : Char) : Bool := c.isAlphanum || c == '_'

/-- Fuel-driven scan implementing `re.sub(r"&\w+;", " ", text)`: at each `&`,
if a nonempty maximal word-character run followed by `;` is found, the whole
match is replaced by one space and scanning resumes after the match; otherwise
the scan advances one character.  The fuel only serves to make the recursion
structural; `subEntities` supplies enough fuel for it never to run out. -/
def subEntitiesGo : Nat → List Char → List Char
  | _, [] => []
  | 0, l => l
  | fuel + 1, c :: rest =>
    if c = '&' ∧ rest.takeWhile isWord ≠ [] then
      match rest.dropWhile isWord with
      | ';' :: r => ' ' :: subEntitiesGo fuel r
      | _ => c :: subEntitiesGo fuel rest
    else c :: subEntitiesGo fuel rest

/-- The substitution `re.sub(r"&\w+;", " ", ·)` on a character list. -/
def subEntities (l : List Char) : List Char := subEntitiesGo l.length l

/-- Implementation of `re.sub(r"\s+", " ", text)`: every maximal run of
whitespace characters is replaced by a single space. -/
def collapseWs : List Char → List Char
  | [] => []
  | [c] => if c.isWhitespace then [' '] else [c]
  | c :: d :: rest =>
    if c.isWhitespace then
      if d.isWhitespace then collapseWs (d :: rest)
      else ' ' :: collapseWs (d :: rest)
    else c :: collapseWs (d :: rest)

/-- Python's `str.strip()` on a character list: remove leading and trailing
whitespace. -/
def pyStrip (l : List Char) : List Char :=
  ((l.dropWhile Char.isWhitespace).reverse.dropWhile Char.isWhitespace).reverse

/-- Python's `str.strip()` on strings. -/
def pyStripStr (s : String) : String := String.mk (pyStrip s.data)

/-- Function `clean_text` from `cleaner.py`: empty input is returned unchanged (the
`if not text` guard), otherwise HTML entities are replaced by spaces,
whitespace runs are collapsed, and the ends are stripped. -/
def clean_text (text : String) : String :=
  if text = "" then ""
  else String.mk (pyStrip (collapseWs (subEntities text.data)))

/-- Function `clean_text` as called on a possibly absent (`None`) argument: `None` is
falsy, so the `if not text` guard maps it to the empty string. -/
def clean_text_py : Option String → String
  | none => ""
  | some s => clean_text s

/-- A Python value as it can appear in a record field: a string, `None`,
pandas' `NaN`, or an integer (standing in for any non-string JSON scalar). -/
inductive PyVal where
  | vstr : String → PyVal
  | vnone : PyVal
  | vnan : PyVal
  | vint : Int → PyVal
deriving DecidableEq, Repr

/-- Python's `str(...)` on a `PyVal`: `str(None) = "None"`, `str(nan) = "nan"`. -/
def pyStr : PyVal → String
  | .vstr s => s
  | .vnone => "None"
  | .vnan => "nan"
  | .vint n => toString n

/-- A record / `pd.Series` row: an association list from column names to
values.  Lookups read the first binding of a key. -/
abbrev Row := List (String × PyVal)

/-- Lookup `row.get(k, d)`: the value bound to `k`, or the default `d` when the key
is absent. -/
def rowGet (r : Row) (k : String) (d : PyVal) : PyVal :=
  match r.find? (fun p => p.1 == k) with
  | some p => p.2
  | none => d

/-- Whether the row has a binding for the key. -/
def hasKey (r : Row) (k : String) : Bool :=
  (r.find? (fun p => p.1 == k)).isSome

/-- Setting a column value on a row (newer binding shadows older ones). -/
def setKey (r : Row) (k : String) (v : PyVal) : Row := (k, v) :: r

/-- Python's `str.lower()` (character-wise lowercasing). -/
def pyLower (s : String) : String := String.mk (s.data.map Char.toLower)

/-- Python's `s.startswith(pre)`. -/
def pyStartsWith (s pre : String) : Bool := pre.data.isPrefixOf s.data

/-- The test `not isinstance(url, str) or not url.startswith("https")`, negated:
the url is a string beginning with `"https"`. -/
def urlOk : PyVal → Bool
  | .vstr s => pyStartsWith s "https"
  | _ => false

/-- The default of `config.get("min_answer_length", 15)`. -/
def MIN_ANSWER_LEN_DEFAULT : Nat := 15

/-- The trimmed stringified answer `str(row.get("answer", "")).strip()`
computed at the top of `categorize_unclean`. -/
def ansOf (row : Row) : String :=
  pyStripStr (pyStr (rowGet row "answer" (PyVal.vstr "")))

/-- Function `categorize_unclean` from `cleaner.py`: assign the rejection reason for a
row, checking the rules in source order.  `minLen` is the module-level
`MIN_ANSWER_LEN` read from the configuration. -/
def categorize_unclean (minLen : Nat) (row : Row) : String :=
  let ans := ansOf row
  let _q := pyStripStr (pyStr (rowGet row "question" (PyVal.vstr "")))
  let url := rowGet row "url" (PyVal.vstr "")
  if pyLower ans ∈ (["", "none", "nan"] : List String) then "No Answer"
  else if urlOk url = false then "Malformed Entry"
  else if ans.length < minLen then "Too Short"
  else "Other"

/-- One column update of step 2 of `clean_dataset`:
`df[col] = df[col].astype(str).apply(clean_text)`, performed only when the
column exists.  A row missing the key holds `NaN` in the DataFrame, which
`astype(str)` turns into `"nan"`. -/
def normField (r : Row) (k : String) (has : Bool) : Row :=
  if has then setKey r k (PyVal.vstr (clean_text (pyStr (rowGet r k PyVal.vnan))))
  else r

/-- Step 2 of `clean_dataset` on one row, for the columns
`question`, `body`, `answer` (each flag says whether the column exists). -/
def normalizeRow (qc bc ac : Bool) (r : Row) : Row :=
  normField (normField (normField r "question" qc) "body" bc) "answer" ac

/-- Whether a column exists in the DataFrame: some row binds the key. -/
def hasCol (rows : List Row) (k : String) : Bool := rows.any (hasKey · k)

/-- Step 2 of `clean_dataset`: normalize the text columns of every row. -/
def normalizeStep (rows : List Row) : List Row :=
  rows.map (normalizeRow (hasCol rows "question") (hasCol rows "body")
    (hasCol rows "answer"))

/-- The `url` value of a row as the DataFrame sees it (missing key = `NaN`). -/
def urlKey (r : Row) : PyVal := rowGet r "url" PyVal.vnan

/-- Fuel-driven implementation of step 3,
`df.drop_duplicates(subset=["url"])`: keep the first row of each distinct
`url` value, dropping later rows with an already-seen `url`. -/
def dedupGo : Nat → List Row → List Row
  | _, [] => []
  | 0, l => l
  | fuel + 1, r :: rest =>
    r :: dedupGo fuel (rest.filter (fun r2 => ¬ urlKey r2 = urlKey r))

/-- Step 3, `df.drop_duplicates(subset=["url"])`, on a list of rows. -/
def dedupByUrl (rows : List Row) : List Row := dedupGo rows.length rows

/-- Step 4: `df["reason"] = df.apply(categorize_unclean, axis=1)`. -/
def addReason (minLen : Nat) (r : Row) : Row :=
  setKey r "reason" (PyVal.vstr (categorize_unclean minLen r))

/-- The `reason` column value of a row. -/
def reasonVal (r : Row) : PyVal := rowGet r "reason" PyVal.vnan

/-- The `answer` column value of a row (missing key = `NaN`). -/
def ansVal (r : Row) : PyVal := rowGet r "answer" PyVal.vnan

/-- pandas `Series.notna()` on one value. -/
def py_notna : PyVal → Bool
  | .vnan => false
  | .vnone => false
  | _ => true

/-- The test `df["answer"].str.strip() != ""` on one value: `.str` methods yield `NaN`
on non-strings, and `NaN != ""` is `True`. -/
def strStripNeEmpty : PyVal → Bool
  | .vstr s => ¬ pyStripStr s = ""
  | _ => true

/-- The test `df["answer"].str.len() >= n` on one value: `.str.len()` yields `NaN` on
non-strings, and `NaN >= n` is `False`. -/
def strLenGe (n : Nat) : PyVal → Bool
  | .vstr s => n ≤ s.length
  | _ => false

/-- The row filter of step 5 of `clean_dataset` building `clean_df`. -/
def cleanCond (minLen : Nat) (r : Row) : Bool :=
  (reasonVal r == PyVal.vstr "Other") && py_notna (ansVal r)
    && strStripNeEmpty (ansVal r) && strLenGe minLen (ansVal r)

/-- The clean-partition membership test as the SPEC words it (§4.4):
reason is `Other`, the answer is non-null, the trimmed answer is non-empty,
and the TRIMMED answer's length reaches the threshold.  (The code checks the
untrimmed length; `c4_clean_partition_exact` compares the two.) -/
def cleanCondSpec (minLen : Nat) (r : Row) : Bool :=
  (reasonVal r == PyVal.vstr "Other") && py_notna (ansVal r)
    && (¬ pyStripStr (pyStr (ansVal r)) = "")
    && (minLen ≤ (pyStripStr (pyStr (ansVal r))).length)

/-- Steps 2–4 of `clean_dataset`: normalize, deduplicate, classify. -/
def classifiedRows (minLen : Nat) (data : List Row) : List Row :=
  (dedupByUrl (normalizeStep data)).map (addReason minLen)

/-- Steps 5–6 of `clean_dataset`: `clean_df` keeps the rows passing
`cleanCond`; `unclean_df` is its complement (`~df.index.isin(clean_df.index)`
over the distinct indices of the deduplicated frame). -/
def partitionStep (minLen : Nat) (rows : List Row) : List Row × List Row :=
  (rows.filter (cleanCond minLen), rows.filter (fun r => ! cleanCond minLen r))

/-- The in-memory part of `clean_dataset`: the `(clean_df, unclean_df)` pair
computed from the raw records. -/
def clean_dataset_model (minLen : Nat) (data : List Row) : List Row × List Row :=
  partitionStep minLen (classifiedRows minLen data)

/-- The configuration entries `clean_dataset` reads. -/
structure CleanerConfig where
  output_folder : String
  raw_file : String
  clean_file : String
  unclean_file : String
  min_answer_length : Nat

/-- The path `Path(config["output_folder"]) / config["raw_file"]`. -/
def rawPath (cfg : CleanerConfig) : String := cfg.output_folder ++ "/" ++ cfg.raw_file

/-- The path `Path(config["output_folder"]) / config["clean_file"]`. -/
def cleanPath (cfg : CleanerConfig) : String := cfg.output_folder ++ "/" ++ cfg.clean_file

/-- The path `Path(config["output_folder"]) / config["unclean_file"]`. -/
def uncleanPath (cfg : CleanerConfig) : String := cfg.output_folder ++ "/" ++ cfg.unclean_file

/-- A tiny file-system model: paths bound to record tables. -/
abbrev FileSys := List (String × List Row)

/-- Path lookup (`RAW_PATH.exists()` + reading the file). -/
def fsRead (fs : FileSys) (p : String) : Option (List Row) :=
  (fs.find? (fun e => e.1 == p)).map (·.2)

/-- Writing a file (`to_csv`). -/
def fsWrite (fs : FileSys) (p : String) (rows : List Row) : FileSys := (p, rows) :: fs

/-- The observable outcome of one `clean_dataset()` run. -/
structure RunOutcome where
  fs : FileSys
  console : List String
  written : Option (List Row × List Row)

/-- Function `clean_dataset` at the file level: if the raw input path does not exist,
print the error and return without touching the file system; otherwise
compute the partition and write both output files. -/
def clean_dataset_run (cfg : CleanerConfig) (fs : FileSys) : RunOutcome :=
  match fsRead fs (rawPath cfg) with
  | none =>
    { fs := fs
      console := ["❌ raw_data.json not found. Please run scraper.py first."]
      written := none }
  | some data =>
    let r := clean_dataset_model cfg.min_answer_length data
    { fs := fsWrite (fsWrite fs (cleanPath cfg) r.1) (uncleanPath cfg) r.2
      console := ["✅ Cleaning Complete!"]
      written := some r }

/-- Predicate `EntOcc l`: the character list `l` contains a substring matching the
regex `&\w+;` (an ampersand, a nonempty run of word characters, a
semicolon). -/
def EntOcc (l : List Char) : Prop :=
  ∃ a w b, w ≠ [] ∧ (∀ c ∈ w, isWord c = true) ∧ l = a ++ '&' :: (w ++ ';' :: b)

/-- The head of the list, if any, is not whitespace. -/
def headNotWs : List Char → Bool
  | [] => true
  | d :: _ => !d.isWhitespace

/-- Whitespace normal form: every whitespace character is a single space
and is not followed by another whitespace character. -/
def wsOk : List Char → Bool
  | [] => true
  | c :: rest =>
    (if c.isWhitespace then c == ' ' && headNotWs rest else true) && wsOk rest

/-- Rule 1 condition of `categorize_unclean`. -/
def noAnswerCond (row : Row) : Prop :=
  pyLower (ansOf row) ∈ (["", "none", "nan"] : List String)

/-- Rule 2 condition of `categorize_unclean`. -/
def malformedCond (row : Row) : Prop :=
  urlOk (rowGet row "url" (PyVal.vstr "")) = false

/-- Rule 3 condition of `categorize_unclean`. -/
def tooShortCond (minLen : Nat) (row : Row) : Prop := (ansOf row).length < minLen

/-! ## Theorems -/

theorem length_dropWhile_le (p : α → Bool) (l : List α) :
    (l.dropWhile p).length ≤ l.length := by
  induction l with
  | nil => simp
  | cons c rest ih =>
    rw [List.dropWhile_cons]
    split
    · exact Nat.le_succ_of_le ih
    · simp

theorem subEntitiesGo_fuel (fuel fuel' : Nat) (l : List Char)
    (h : l.length ≤ fuel) (h' : l.length ≤ fuel') :
    subEntitiesGo fuel l = subEntitiesGo fuel' l := by
  induction fuel generalizing fuel' l with
  | zero =>
    cases l with
    | nil => cases fuel' <;> rfl
    | cons c rest => simp at h
  | succ fuel ih =>
    cases l with
    | nil => cases fuel' <;> rfl
    | cons c rest =>
      cases fuel' with
      | zero => simp at h'
      | succ fuel' =>
        have hrest : rest.length ≤ fuel := Nat.le_of_succ_le_succ h
        have hrest' : rest.length ≤ fuel' := Nat.le_of_succ_le_succ h'
        rw [subEntitiesGo, subEntitiesGo]
        split
        · split
          · next r heq =>
            have hr : r.length ≤ rest.length := by
              have h1 := length_dropWhile_le isWord rest
              rw [heq] at h1
              simp at h1
              omega
            exact congrArg (List.cons ' ')
              (ih fuel' r (Nat.le_trans hr hrest) (Nat.le_trans hr hrest'))
          · exact congrArg (List.cons c) (ih fuel' rest hrest hrest')
        · exact congrArg (List.cons c) (ih fuel' rest hrest hrest')

theorem subEntities_nil : subEntities [] = [] := rfl

theorem subEntities_cons_match (c : Char) (rest r : List Char)
    (hc : c = '&') (hw : rest.takeWhile isWord ≠ [])
    (hd : rest.dropWhile isWord = ';' :: r) :
    subEntities (c :: rest) = ' ' :: subEntities r := by
  have hr : r.length ≤ rest.length := by
    have h1 := length_dropWhile_le isWord rest
    rw [hd] at h1
    simp at h1
    omega
  show subEntitiesGo (rest.length + 1) (c :: rest) = ' ' :: subEntitiesGo r.length r
  rw [subEntitiesGo, if_pos ⟨hc, hw⟩]
  split
  · next r' heq =>
    rw [hd] at heq
    cases heq
    exact congrArg (List.cons ' ')
      (subEntitiesGo_fuel rest.length r.length r hr (Nat.le_refl _))
  · next h2 => exact absurd hd (h2 r)

theorem subEntities_cons_skip (c : Char) (rest : List Char)
    (h : ¬ (c = '&' ∧ rest.takeWhile isWord ≠ []) ∨
         ∀ r, rest.dropWhile isWord ≠ ';' :: r) :
    subEntities (c :: rest) = c :: subEntities rest := by
  show subEntitiesGo (rest.length + 1) (c :: rest) = c :: subEntitiesGo rest.length rest
  rw [subEntitiesGo]
  rcases h with h | h
  · rw [if_neg h]
  · split
    · split
      · next r heq => exact absurd heq (h r)
      · rfl
    · rfl

theorem EntOcc.cons (c : Char) (h : EntOcc l) : EntOcc (c :: l) := by
  obtain ⟨a, w, b, hw, hword, rfl⟩ := h
  exact ⟨c :: a, w, b, hw, hword, rfl⟩

theorem EntOcc.cons_elim (h : EntOcc (c :: l)) :
    (c = '&' ∧ ∃ w b, w ≠ [] ∧ (∀ x ∈ w, isWord x = true) ∧ l = w ++ ';' :: b)
      ∨ EntOcc l := by
  obtain ⟨a, w, b, hw, hword, heq⟩ := h
  cases a with
  | nil =>
    simp only [List.nil_append, List.cons.injEq] at heq
    exact Or.inl ⟨heq.1, w, b, hw, hword, heq.2⟩
  | cons x a' =>
    simp only [List.cons_append, List.cons.injEq] at heq
    exact Or.inr ⟨a', w, b, hw, hword, heq.2⟩

theorem EntOcc.not_nil : ¬ EntOcc ([] : List Char) := by
  rintro ⟨a, w, b, hw, hword, heq⟩
  cases a <;> simp at heq

theorem EntOcc.append_middle (x y : List Char) (h : EntOcc m) :
    EntOcc (x ++ m ++ y) := by
  obtain ⟨a, w, b, hw, hword, rfl⟩ := h
  exact ⟨x ++ a, w, b ++ y, hw, hword, by simp⟩

theorem takeWhile_word_run (w b : List Char) (hword : ∀ x ∈ w, isWord x = true) :
    (w ++ ';' :: b).takeWhile isWord = w := by
  induction w with
  | nil => simp [List.takeWhile_cons, isWord]
  | cons x w' ih =>
    have hx : isWord x = true := hword x (by simp)
    simp only [List.cons_append, List.takeWhile_cons, hx, if_true]
    rw [ih (fun y hy => hword y (by simp [hy]))]

theorem dropWhile_word_run (w b : List Char) (hword : ∀ x ∈ w, isWord x = true) :
    (w ++ ';' :: b).dropWhile isWord = ';' :: b := by
  induction w with
  | nil => simp [List.dropWhile_cons, isWord]
  | cons x w' ih =>
    have hx : isWord x = true := hword x (by simp)
    simp only [List.cons_append, List.dropWhile_cons, hx, if_true]
    exact ih (fun y hy => hword y (by simp [hy]))

/-- Case analysis for one scanning step of `subEntities`. -/
theorem subEntities_cons_cases (c : Char) (rest : List Char) :
    (∃ r, c = '&' ∧ rest.takeWhile isWord ≠ [] ∧ rest.dropWhile isWord = ';' :: r ∧
        subEntities (c :: rest) = ' ' :: subEntities r)
    ∨ ((¬ (c = '&' ∧ rest.takeWhile isWord ≠ []) ∨
          ∀ r, rest.dropWhile isWord ≠ ';' :: r)
        ∧ subEntities (c :: rest) = c :: subEntities rest) := by
  by_cases hc : c = '&' ∧ rest.takeWhile isWord ≠ []
  · cases hdw : rest.dropWhile isWord with
    | nil =>
      have hne : ∀ r, rest.dropWhile isWord ≠ ';' :: r := by
        intro r h
        rw [hdw] at h
        cases h
      exact Or.inr ⟨Or.inr (fun r h => by cases h),
        subEntities_cons_skip c rest (Or.inr hne)⟩
    | cons d t =>
      by_cases hd : d = ';'
      · subst hd
        left
        refine ⟨t, hc.1, hc.2, rfl, ?_⟩
        exact subEntities_cons_match c rest t hc.1 hc.2 hdw
      · have hne : ∀ r, rest.dropWhile isWord ≠ ';' :: r := by
          intro r h
          rw [hdw] at h
          exact hd (List.cons.injEq .. ▸ h).1
        exact Or.inr ⟨Or.inr fun r h => hd (List.cons.injEq .. ▸ h).1,
          subEntities_cons_skip c rest (Or.inr hne)⟩
  · exact Or.inr ⟨Or.inl hc, subEntities_cons_skip c rest (Or.inl hc)⟩

/-- If the output of `subEntities` begins with a word run and a semicolon,
so did its input. -/
theorem subEntities_word_semi (n : Nat) :
    ∀ l w b, l.length ≤ n → w ≠ [] → (∀ x ∈ w, isWord x = true) →
      subEntities l = w ++ ';' :: b → ∃ b', l = w ++ ';' :: b' := by
  induction n with
  | zero =>
    intro l w b hlen hw hword heq
    have hnil : l = [] := List.length_eq_zero.mp (Nat.le_zero.mp hlen)
    subst hnil
    rw [subEntities_nil] at heq
    cases w with
    | nil => exact absurd rfl hw
    | cons x w' => simp at heq
  | succ n ih =>
    intro l w b hlen hw hword heq
    cases l with
    | nil =>
      rw [subEntities_nil] at heq
      cases w with
      | nil => exact absurd rfl hw
      | cons x w' => simp at heq
    | cons c rest =>
      rcases subEntities_cons_cases c rest with
        ⟨r, _, _, _, hout⟩ | ⟨_, hout⟩
      · rw [hout] at heq
        cases w with
        | nil => exact absurd rfl hw
        | cons x w' =>
          have hx : isWord x = true := hword x (by simp)
          have hsp : (' ' : Char) = x := by
            have h3 := congrArg List.head? heq
            simp only [List.cons_append, List.head?_cons, Option.some.injEq] at h3
            exact h3
          rw [← hsp] at hx
          simp [isWord] at hx
      · rw [hout] at heq
        cases w with
        | nil =>
          simp only [List.nil_append, List.cons.injEq] at heq
          refine ⟨rest, ?_⟩
          rw [heq.1]
          rfl
        | cons x w' =>
          simp only [List.cons_append, List.cons.injEq] at heq
          obtain ⟨rfl, heq2⟩ := heq
          cases w' with
          | nil =>
            cases rest with
            | nil =>
              rw [subEntities_nil] at heq2
              simp at heq2
            | cons d rest' =>
              have hd : d = ';' := by
                rcases subEntities_cons_cases d rest' with
                  ⟨r, _, _, _, hout'⟩ | ⟨_, hout'⟩
                · rw [hout'] at heq2
                  have h3 := congrArg List.head? heq2
                  simp only [List.nil_append, List.head?_cons, Option.some.injEq] at h3
                  exact absurd h3 (by decide)
                · rw [hout'] at heq2
                  have h3 := congrArg List.head? heq2
                  simp only [List.nil_append, List.head?_cons, Option.some.injEq] at h3
                  exact h3
              refine ⟨rest', ?_⟩
              rw [hd]
              rfl
          | cons y w'' =>
            have hrest : rest.length ≤ n := by
              simp only [List.length_cons] at hlen
              omega
            obtain ⟨b', hb'⟩ := ih rest (y :: w'') b hrest (by simp)
              (fun z hz => hword z (by simp [List.mem_cons] at hz ⊢; tauto)) heq2
            refine ⟨b', ?_⟩
            rw [hb']
            rfl

/-- The output of `subEntities` contains no match of `&\w+;`: each
replacement inserts a space, which can complete no new match. -/
theorem entFree_subEntities (n : Nat) :
    ∀ l, l.length ≤ n → ¬ EntOcc (subEntities l) := by
  induction n with
  | zero =>
    intro l hlen
    have hnil : l = [] := List.length_eq_zero.mp (Nat.le_zero.mp hlen)
    subst hnil
    rw [subEntities_nil]
    exact EntOcc.not_nil
  | succ n ih =>
    intro l hlen
    cases l with
    | nil =>
      rw [subEntities_nil]
      exact EntOcc.not_nil
    | cons c rest =>
      simp only [List.length_cons] at hlen
      rcases subEntities_cons_cases c rest with
        ⟨r, _, _, hdw, hout⟩ | ⟨hskip, hout⟩
      · rw [hout]
        intro hocc
        rcases hocc.cons_elim with ⟨hsp, _⟩ | htail
        · exact absurd hsp (by decide)
        · have hr : r.length ≤ n := by
            have h1 := length_dropWhile_le isWord rest
            rw [hdw] at h1
            simp at h1
            omega
          exact ih r hr htail
      · rw [hout]
        intro hocc
        rcases hocc.cons_elim with ⟨rfl, w, b, hw, hword, hweq⟩ | htail
        · obtain ⟨b', hb'⟩ :=
            subEntities_word_semi rest.length rest w b (Nat.le_refl _) hw hword hweq
          rcases hskip with hskip | hskip
          · apply hskip
            constructor
            · rfl
            · rw [hb', takeWhile_word_run w b' hword]
              exact hw
          · exact hskip b' (by rw [hb', dropWhile_word_run w b' hword])
        · exact ih rest (by omega) htail

/-- On entity-free input, `subEntities` is the identity. -/
theorem subEntities_of_entFree (n : Nat) :
    ∀ l, l.length ≤ n → ¬ EntOcc l → subEntities l = l := by
  induction n with
  | zero =>
    intro l hlen _
    have hnil : l = [] := List.length_eq_zero.mp (Nat.le_zero.mp hlen)
    subst hnil
    rfl
  | succ n ih =>
    intro l hlen hfree
    cases l with
    | nil => rfl
    | cons c rest =>
      simp only [List.length_cons] at hlen
      rcases subEntities_cons_cases c rest with
        ⟨r, hc, hw, hdw, _⟩ | ⟨_, hout⟩
      · exfalso
        apply hfree
        refine ⟨[], rest.takeWhile isWord, r, hw,
          fun x hx => List.mem_takeWhile_imp hx, ?_⟩
        rw [hc]
        simp only [List.nil_append]
        congr 1
        rw [← hdw, List.takeWhile_append_dropWhile]
      · rw [hout, ih rest (by omega) (fun h => hfree (h.cons c))]

theorem collapseWs_cons_not_ws (c : Char) (rest : List Char)
    (h : c.isWhitespace = false) :
    collapseWs (c :: rest) = c :: collapseWs rest := by
  cases rest with
  | nil => simp [collapseWs, h]
  | cons d rest' => simp [collapseWs, h]

theorem collapseWs_cons_ws (h : c.isWhitespace = true) :
    ∀ rest, ∃ t, collapseWs (c :: rest) = ' ' :: t := by
  intro rest
  induction rest generalizing c with
  | nil => exact ⟨[], by simp [collapseWs, h]⟩
  | cons d rest' ih =>
    by_cases hd : d.isWhitespace
    · obtain ⟨t, ht⟩ := ih hd
      exact ⟨t, by simp [collapseWs, h, hd, ht]⟩
    · exact ⟨collapseWs (d :: rest'), by simp [collapseWs, h, hd]⟩

theorem wsOk_collapseWs : ∀ l, wsOk (collapseWs l) = true := by
  intro l
  induction l with
  | nil => rfl
  | cons c rest ih =>
    cases rest with
    | nil =>
      by_cases hc : c.isWhitespace <;> simp [collapseWs, wsOk, headNotWs, hc]
    | cons d rest' =>
      by_cases hc : c.isWhitespace
      · by_cases hd : d.isWhitespace
        · simpa [collapseWs, hc, hd] using ih
        · have hout := collapseWs_cons_not_ws d rest' (by simpa using hd)
          have hcd : collapseWs (c :: d :: rest') = ' ' :: collapseWs (d :: rest') := by
            simp [collapseWs, hc, hd]
          have hhead : headNotWs (collapseWs (d :: rest')) = true := by
            rw [hout]
            simp [headNotWs, hd]
          rw [hcd]
          simp only [wsOk, Bool.and_eq_true]
          refine ⟨?_, ih⟩
          rw [if_pos (by decide)]
          simp [hhead]
      · have hcd : collapseWs (c :: d :: rest') = c :: collapseWs (d :: rest') := by
          simp [collapseWs, hc]
        rw [hcd]
        simp only [wsOk, if_neg hc, Bool.true_and]
        exact ih

theorem collapseWs_of_wsOk : ∀ l, wsOk l = true → collapseWs l = l := by
  intro l
  induction l with
  | nil => intro _; rfl
  | cons c rest ih =>
    intro h
    cases rest with
    | nil =>
      by_cases hc : c.isWhitespace
      · simp only [wsOk, if_pos hc, headNotWs, Bool.and_eq_true, beq_iff_eq] at h
        simp [collapseWs, hc, h.1.1]
      · simp [collapseWs, hc]
    | cons d rest' =>
      have h' := (Bool.and_eq_true _ _).mp h
      by_cases hc : c.isWhitespace
      · have hcnd := h'.1
        rw [if_pos hc] at hcnd
        have hcnd' := (Bool.and_eq_true _ _).mp hcnd
        have hsp : c = ' ' := by simpa using hcnd'.1
        have hd : d.isWhitespace = false := by
          simpa [headNotWs] using hcnd'.2
        have hstep : collapseWs (c :: d :: rest') = ' ' :: collapseWs (d :: rest') := by
          simp [collapseWs, hc, hd]
        rw [hstep, ih h'.2, hsp]
      · have hstep : collapseWs (c :: d :: rest') = c :: collapseWs (d :: rest') := by
          simp [collapseWs, hc]
        rw [hstep, ih h'.2]

theorem wsOk_append_right (x y : List Char) (h : wsOk (x ++ y) = true) :
    wsOk y = true := by
  induction x with
  | nil => exact h
  | cons c x' ih =>
    simp only [List.cons_append, wsOk, Bool.and_eq_true] at h
    exact ih h.2

theorem headNotWs_append_left (x' y : List Char)
    (h : headNotWs (x' ++ y) = true) : headNotWs x' = true := by
  cases x' with
  | nil => rfl
  | cons e t => simpa [headNotWs] using h

theorem wsOk_append_left (x y : List Char) (h : wsOk (x ++ y) = true) :
    wsOk x = true := by
  induction x with
  | nil => rfl
  | cons c x' ih =>
    simp only [List.cons_append, wsOk, Bool.and_eq_true] at h
    simp only [wsOk, Bool.and_eq_true]
    refine ⟨?_, ih h.2⟩
    by_cases hc : c.isWhitespace
    · rw [if_pos hc] at h ⊢
      have h1 := (Bool.and_eq_true _ _).mp h.1
      exact (Bool.and_eq_true _ _).mpr ⟨h1.1, headNotWs_append_left x' y h1.2⟩
    · rw [if_neg hc]

/-- No whitespace run of length two or more survives `wsOk`. -/
theorem wsOk_no_double (l : List Char) (h : wsOk l = true) :
    ∀ a b c d, l = a ++ c :: d :: b →
      ¬ (c.isWhitespace = true ∧ d.isWhitespace = true) := by
  rintro a b c d heq ⟨hc, hd⟩
  subst heq
  have h2 := wsOk_append_right a _ h
  simp [wsOk, hc, hd, headNotWs] at h2

/-- A match of `&\w+;` inside the output of `collapseWs` is already present
in its input (the matched characters contain no whitespace, so collapsing
runs around them cannot create one). -/
theorem collapseWs_word_semi :
    ∀ l w b, (∀ x ∈ w, isWord x = true) →
      collapseWs l = w ++ ';' :: b → ∃ b', l = w ++ ';' :: b' := by
  intro l
  induction l with
  | nil =>
    intro w b _ heq
    cases w <;> simp [collapseWs] at heq
  | cons c rest ih =>
    intro w b hword heq
    by_cases hc : c.isWhitespace
    · obtain ⟨t, ht⟩ := collapseWs_cons_ws hc rest
      rw [ht] at heq
      cases w with
      | nil =>
        simp only [List.nil_append, List.cons.injEq] at heq
        exact absurd heq.1 (by decide)
      | cons x w' =>
        simp only [List.cons_append, List.cons.injEq] at heq
        have hx : isWord x = true := hword x (by simp)
        rw [← heq.1] at hx
        simp [isWord] at hx
    · rw [collapseWs_cons_not_ws c rest (by simpa using hc)] at heq
      cases w with
      | nil =>
        simp only [List.nil_append, List.cons.injEq] at heq
        exact ⟨rest, by simp [heq.1]⟩
      | cons x w' =>
        simp only [List.cons_append, List.cons.injEq] at heq
        obtain ⟨rfl, heq2⟩ := heq
        obtain ⟨b', hb'⟩ := ih w' b (fun z hz => hword z (by simp [hz])) heq2
        exact ⟨b', by simp [hb']⟩

theorem EntOcc.three_le_length (h : EntOcc l) : 3 ≤ l.length := by
  obtain ⟨a, w, b, hw, _, rfl⟩ := h
  have : 1 ≤ w.length := List.length_pos.mpr hw
  simp [List.length_append]
  omega

/-- Collapsing whitespace preserves entity-freeness. -/
theorem entFree_collapseWs (l : List Char) (h : ¬ EntOcc l) :
    ¬ EntOcc (collapseWs l) := by
  induction l with
  | nil => exact fun hocc => hocc.not_nil
  | cons c rest ih =>
    have hrest : ¬ EntOcc rest := fun h2 => h (h2.cons c)
    cases rest with
    | nil =>
      intro hocc
      have h3 := hocc.three_le_length
      by_cases hc : c.isWhitespace <;> simp [collapseWs, hc] at h3
    | cons d rest' =>
      by_cases hc : c.isWhitespace
      · by_cases hd : d.isWhitespace
        · have : collapseWs (c :: d :: rest') = collapseWs (d :: rest') := by
            simp [collapseWs, hc, hd]
          rw [this]
          exact ih hrest
        · have : collapseWs (c :: d :: rest') = ' ' :: collapseWs (d :: rest') := by
            simp [collapseWs, hc, hd]
          rw [this]
          intro hocc
          rcases hocc.cons_elim with ⟨hsp, _⟩ | htail
          · exact absurd hsp (by decide)
          · exact ih hrest htail
      · rw [collapseWs_cons_not_ws c (d :: rest') (by simpa using hc)]
        intro hocc
        rcases hocc.cons_elim with ⟨rfl, w, b, hw, hword, hweq⟩ | htail
        · obtain ⟨b', hb'⟩ := collapseWs_word_semi (d :: rest') w b hword hweq
          exact h ⟨[], w, b', hw, hword, by simp [hb']⟩
        · exact ih hrest htail

theorem head?_dropWhile_false (p : α → Bool) (l : List α) (c : α)
    (h : (l.dropWhile p).head? = some c) : p c = false := by
  induction l with
  | nil => simp at h
  | cons x t ih =>
    rw [List.dropWhile_cons] at h
    split at h
    · exact ih h
    · next hx =>
      simp only [List.head?_cons, Option.some.injEq] at h
      subst h
      simpa using hx

/-- The strip step only removes a whitespace prefix and a whitespace
suffix: `pyStrip l` sits in the middle of `l`. -/
theorem pyStrip_decomp (l : List Char) : ∃ x y, l = x ++ pyStrip l ++ y := by
  refine ⟨l.takeWhile Char.isWhitespace,
    ((l.dropWhile Char.isWhitespace).reverse.takeWhile Char.isWhitespace).reverse, ?_⟩
  have h1 := List.takeWhile_append_dropWhile Char.isWhitespace l
  have h2 := List.takeWhile_append_dropWhile Char.isWhitespace
    (l.dropWhile Char.isWhitespace).reverse
  have h3 : l.dropWhile Char.isWhitespace
      = pyStrip l
        ++ ((l.dropWhile Char.isWhitespace).reverse.takeWhile Char.isWhitespace).reverse := by
    have h4 := congrArg List.reverse h2
    rw [List.reverse_append, List.reverse_reverse] at h4
    exact h4.symm
  calc l = l.takeWhile Char.isWhitespace ++ l.dropWhile Char.isWhitespace := h1.symm
    _ = l.takeWhile Char.isWhitespace ++ (pyStrip l
        ++ ((l.dropWhile Char.isWhitespace).reverse.takeWhile Char.isWhitespace).reverse) :=
      congrArg (fun z => l.takeWhile Char.isWhitespace ++ z) h3
    _ = l.takeWhile Char.isWhitespace ++ pyStrip l
        ++ ((l.dropWhile Char.isWhitespace).reverse.takeWhile Char.isWhitespace).reverse :=
      (List.append_assoc _ _ _).symm

theorem pyStrip_head (l : List Char) (c : Char)
    (h : (pyStrip l).head? = some c) : c.isWhitespace = false := by
  unfold pyStrip at h
  rw [List.head?_reverse] at h
  have h2 := List.takeWhile_append_dropWhile Char.isWhitespace
    (l.dropWhile Char.isWhitespace).reverse
  have h3 : (l.dropWhile Char.isWhitespace).reverse.getLast? = some c := by
    rw [← h2, List.getLast?_append, h]
    rfl
  rw [List.getLast?_reverse] at h3
  exact head?_dropWhile_false Char.isWhitespace l c h3

theorem pyStrip_getLast (l : List Char) (c : Char)
    (h : (pyStrip l).getLast? = some c) : c.isWhitespace = false := by
  unfold pyStrip at h
  rw [List.getLast?_reverse] at h
  exact head?_dropWhile_false Char.isWhitespace _ c h

theorem dropWhile_eq_self_of_head (p : α → Bool) (l : List α)
    (h : ∀ c, l.head? = some c → p c = false) : l.dropWhile p = l := by
  cases l with
  | nil => rfl
  | cons x t =>
    have hx := h x rfl
    rw [List.dropWhile_cons]
    simp [hx]

theorem pyStrip_eq_self (l : List Char)
    (h1 : ∀ c, l.head? = some c → c.isWhitespace = false)
    (h2 : ∀ c, l.getLast? = some c → c.isWhitespace = false) :
    pyStrip l = l := by
  unfold pyStrip
  rw [dropWhile_eq_self_of_head _ l h1]
  rw [dropWhile_eq_self_of_head _ l.reverse
    (fun c hc => h2 c (by rwa [List.head?_reverse] at hc))]
  exact List.reverse_reverse l

theorem wsOk_pyStrip (l : List Char) (h : wsOk l = true) :
    wsOk (pyStrip l) = true := by
  obtain ⟨x, y, hd⟩ := pyStrip_decomp l
  rw [hd] at h
  exact wsOk_append_right _ _ (wsOk_append_left _ _ h)

theorem entFree_pyStrip (l : List Char) (h : ¬ EntOcc l) :
    ¬ EntOcc (pyStrip l) := by
  obtain ⟨x, y, hd⟩ := pyStrip_decomp l
  intro hocc
  apply h
  rw [hd]
  exact EntOcc.append_middle _ _ hocc

theorem clean_text_data (s : String) (h : ¬ s = "") :
    (clean_text s).data = pyStrip (collapseWs (subEntities s.data)) := by
  unfold clean_text
  rw [if_neg h]

theorem clean_text_props (s : String) :
    ¬ EntOcc (clean_text s).data ∧ wsOk (clean_text s).data = true ∧
    (∀ c, (clean_text s).data.head? = some c → c.isWhitespace = false) ∧
    (∀ c, (clean_text s).data.getLast? = some c → c.isWhitespace = false) := by
  by_cases h : s = ""
  · subst h
    refine ⟨EntOcc.not_nil, rfl, ?_, ?_⟩ <;> intro c hc <;> simp [clean_text] at hc
  · rw [clean_text_data s h]
    exact ⟨entFree_pyStrip _ (entFree_collapseWs _
        (entFree_subEntities s.data.length s.data (Nat.le_refl _))),
      wsOk_pyStrip _ (wsOk_collapseWs _), pyStrip_head _, pyStrip_getLast _⟩

/-- Core idempotence: a second pass of `clean_text` leaves its own output
unchanged, because that output is entity-free, whitespace-normal, and
stripped. -/
theorem clean_text_idem (s : String) : clean_text (clean_text s) = clean_text s := by
  by_cases h0 : clean_text s = ""
  · rw [h0]
    rfl
  · obtain ⟨hEnt, hws, hhead, hlast⟩ := clean_text_props s
    generalize ht : clean_text s = t at h0 hEnt hws hhead hlast ⊢
    unfold clean_text
    rw [if_neg h0,
      subEntities_of_entFree t.data.length t.data (Nat.le_refl _) hEnt,
      collapseWs_of_wsOk t.data hws, pyStrip_eq_self t.data hhead hlast]

theorem rowGet_setKey_same (r : Row) (k : String) (v d : PyVal) :
    rowGet (setKey r k v) k d = v := by
  simp [rowGet, setKey, List.find?_cons_of_pos]

theorem rowGet_setKey_ne (r : Row) (k k' : String) (v d : PyVal) (h : k ≠ k') :
    rowGet (setKey r k v) k' d = rowGet r k' d := by
  have : ((k, v).1 == k') = false := by simpa using h
  simp [rowGet, setKey, List.find?_cons_of_neg, this]

theorem hasKey_setKey_ne (r : Row) (k k' : String) (v : PyVal) (h : k ≠ k') :
    hasKey (setKey r k v) k' = hasKey r k' := by
  have : ((k, v).1 == k') = false := by simpa using h
  simp [hasKey, setKey, List.find?_cons_of_neg, this]

theorem rowGet_of_hasKey_false (r : Row) (k : String) (d : PyVal)
    (h : hasKey r k = false) : rowGet r k d = d := by
  unfold hasKey at h
  unfold rowGet
  have h2 : r.find? (fun p => p.1 == k) = none :=
    Option.not_isSome_iff_eq_none.mp (by simp [h])
  rw [h2]

theorem rowGet_of_find_eq (r : Row) (k : String) (d : PyVal) (p : String × PyVal)
    (h : r.find? (fun q => q.1 == k) = some p) : rowGet r k d = p.2 := by
  unfold rowGet
  rw [h]

/-- C1: `categorize_unclean` assigns exactly one reason from
`{No Answer, Malformed Entry, Too Short, Other}`, first match wins:
`No Answer` iff the trimmed lowercased answer is `""`/`"none"`/`"nan"`;
else `Malformed Entry` iff the url is not a string beginning with `"https"`;
else `Too Short` iff the trimmed answer is shorter than the configured
minimum; else `Other`.  In particular the record
`{url:"https://x", answer:"", question:"q"}` gets `No Answer` under the
default minimum 15. -/
theorem c1_classifier_first_match (minLen : Nat) (row : Row) :
    ((categorize_unclean minLen row = "No Answer"
        ∨ categorize_unclean minLen row = "Malformed Entry"
        ∨ categorize_unclean minLen row = "Too Short"
        ∨ categorize_unclean minLen row = "Other")
      ∧ (categorize_unclean minLen row = "No Answer" ↔ noAnswerCond row)
      ∧ (categorize_unclean minLen row = "Malformed Entry" ↔
          ¬ noAnswerCond row ∧ malformedCond row)
      ∧ (categorize_unclean minLen row = "Too Short" ↔
          ¬ noAnswerCond row ∧ ¬ malformedCond row ∧ tooShortCond minLen row)
      ∧ (categorize_unclean minLen row = "Other" ↔
          ¬ noAnswerCond row ∧ ¬ malformedCond row ∧ ¬ tooShortCond minLen row))
    ∧ categorize_unclean MIN_ANSWER_LEN_DEFAULT
        [("url", PyVal.vstr "https://x"), ("answer", PyVal.vstr ""),
         ("question", PyVal.vstr "q")] = "No Answer" := by
  refine ⟨?_, by decide⟩
  by_cases h1 : noAnswerCond row
  · have hval : categorize_unclean minLen row = "No Answer" := by
      have h1' := h1
      unfold noAnswerCond at h1'
      simp only [categorize_unclean]
      rw [if_pos h1']
    exact ⟨Or.inl hval, by simp [hval, h1], by rw [hval]; simp [h1],
      by rw [hval]; simp [h1], by rw [hval]; simp [h1]⟩
  · have h1' := h1
    unfold noAnswerCond at h1'
    by_cases h2 : malformedCond row
    · have hval : categorize_unclean minLen row = "Malformed Entry" := by
        have h2' := h2
        unfold malformedCond at h2'
        simp only [categorize_unclean]
        rw [if_neg h1', if_pos h2']
      exact ⟨Or.inr (Or.inl hval), by rw [hval]; simp [h1], by simp [hval, h1, h2],
        by rw [hval]; simp [h2], by rw [hval]; simp [h2]⟩
    · have h2' := h2
      unfold malformedCond at h2'
      by_cases h3 : tooShortCond minLen row
      · have hval : categorize_unclean minLen row = "Too Short" := by
          have h3' := h3
          unfold tooShortCond at h3'
          simp only [categorize_unclean]
          rw [if_neg h1', if_neg h2', if_pos h3']
        exact ⟨Or.inr (Or.inr (Or.inl hval)), by rw [hval]; simp [h1],
          by rw [hval]; simp [h2], by simp [hval, h1, h2, h3],
          by rw [hval]; simp [h3]⟩
      · have h3' := h3
        unfold tooShortCond at h3'
        have hval : categorize_unclean minLen row = "Other" := by
          simp only [categorize_unclean]
          rw [if_neg h1', if_neg h2', if_neg h3']
        exact ⟨Or.inr (Or.inr (Or.inr hval)), by rw [hval]; simp [h1],
          by rw [hval]; simp [h2], by rw [hval]; simp [h3],
          by simp [hval, h1, h2, h3]⟩

/-- C9: the classifier inspects only the `answer` and `url` fields — two
rows agreeing on those lookups (whatever their `question`, `body`, or other
fields) get the same reason. -/
theorem c9_reason_depends_only_on_answer_url (minLen : Nat) (r1 r2 : Row)
    (hans : rowGet r1 "answer" (PyVal.vstr "") = rowGet r2 "answer" (PyVal.vstr ""))
    (hurl : rowGet r1 "url" (PyVal.vstr "") = rowGet r2 "url" (PyVal.vstr "")) :
    categorize_unclean minLen r1 = categorize_unclean minLen r2 := by
  simp only [categorize_unclean, ansOf]
  simp only [hans, hurl]

/-- Witness for C9: a record with a `question` field and one without it,
sharing `answer` and `url`, are classified identically. -/
theorem c9_witness :
    rowGet [("url", PyVal.vstr "https://x"), ("answer", PyVal.vstr "short"),
        ("question", PyVal.vstr "q")] "answer" (PyVal.vstr "")
      = rowGet [("url", PyVal.vstr "https://x"), ("answer", PyVal.vstr "short")]
        "answer" (PyVal.vstr "")
    ∧ rowGet [("url", PyVal.vstr "https://x"), ("answer", PyVal.vstr "short"),
        ("question", PyVal.vstr "q")] "url" (PyVal.vstr "")
      = rowGet [("url", PyVal.vstr "https://x"), ("answer", PyVal.vstr "short")]
        "url" (PyVal.vstr "")
    ∧ categorize_unclean 15
        [("url", PyVal.vstr "https://x"), ("answer", PyVal.vstr "short"),
         ("question", PyVal.vstr "q")]
      = categorize_unclean 15
        [("url", PyVal.vstr "https://x"), ("answer", PyVal.vstr "short")] :=
  ⟨by decide, by decide,
    c9_reason_depends_only_on_answer_url 15
      [("url", PyVal.vstr "https://x"), ("answer", PyVal.vstr "short"),
       ("question", PyVal.vstr "q")]
      [("url", PyVal.vstr "https://x"), ("answer", PyVal.vstr "short")]
      (by decide) (by decide)⟩

/-- C10: an answer field that is present but `None` is stringified to
`"None"`, which after trimming and lowercasing matches the literal
`"none"`, so the classifier returns `No Answer`. -/
theorem c10_null_answer_is_no_answer :
    pyStr PyVal.vnone = "None"
    ∧ pyLower (pyStripStr "None") = "none"
    ∧ ∀ (minLen : Nat) (row : Row),
        rowGet row "answer" (PyVal.vstr "") = PyVal.vnone →
        categorize_unclean minLen row = "No Answer" := by
  refine ⟨rfl, by decide, ?_⟩
  intro minLen row h
  simp only [categorize_unclean, ansOf]
  simp only [h]
  have hc : pyLower (pyStripStr (pyStr PyVal.vnone)) ∈ (["", "none", "nan"] : List String) := by
    decide
  rw [if_pos hc]

/-- Witness for C10: a concrete row whose `answer` is `None`. -/
theorem c10_witness :
    rowGet [("answer", PyVal.vnone), ("url", PyVal.vstr "https://x")] "answer"
        (PyVal.vstr "") = PyVal.vnone
    ∧ categorize_unclean 15 [("answer", PyVal.vnone), ("url", PyVal.vstr "https://x")]
      = "No Answer" :=
  ⟨by decide, c10_null_answer_is_no_answer.2.2 15
    [("answer", PyVal.vnone), ("url", PyVal.vstr "https://x")] (by decide)⟩

theorem dedupGo_fuel (fuel fuel' : Nat) (l : List Row)
    (h : l.length ≤ fuel) (h' : l.length ≤ fuel') :
    dedupGo fuel l = dedupGo fuel' l := by
  induction fuel generalizing fuel' l with
  | zero =>
    cases l with
    | nil => cases fuel' <;> rfl
    | cons r rest => simp at h
  | succ fuel ih =>
    cases l with
    | nil => cases fuel' <;> rfl
    | cons r rest =>
      cases fuel' with
      | zero => simp at h'
      | succ fuel' =>
        have hle := List.length_filter_le
          (fun r2 => ¬ urlKey r2 = urlKey r) rest
        rw [dedupGo, dedupGo]
        exact congrArg (List.cons r) (ih fuel' _
          (Nat.le_trans hle (Nat.le_of_succ_le_succ h))
          (Nat.le_trans hle (Nat.le_of_succ_le_succ h')))

theorem dedupByUrl_cons (r : Row) (rest : List Row) :
    dedupByUrl (r :: rest)
      = r :: dedupByUrl (rest.filter (fun r2 => ¬ urlKey r2 = urlKey r)) := by
  show dedupGo (rest.length + 1) (r :: rest) = _
  rw [dedupGo]
  exact congrArg (List.cons r) (dedupGo_fuel rest.length _ _
    (List.length_filter_le _ rest) (Nat.le_refl _))

theorem dedupByUrl_sublist (n : Nat) :
    ∀ l : List Row, l.length ≤ n → (dedupByUrl l).Sublist l := by
  induction n with
  | zero =>
    intro l hlen
    have : l = [] := List.length_eq_zero.mp (Nat.le_zero.mp hlen)
    subst this
    exact List.Sublist.refl []
  | succ n ih =>
    intro l hlen
    cases l with
    | nil => exact List.Sublist.refl []
    | cons r rest =>
      simp only [List.length_cons] at hlen
      rw [dedupByUrl_cons]
      refine List.Sublist.cons₂ r ?_
      have hle := List.length_filter_le (fun r2 => ¬ urlKey r2 = urlKey r) rest
      exact (ih _ (by omega)).trans (List.filter_sublist rest)

theorem dedupByUrl_mem {l : List Row} {r : Row} (h : r ∈ dedupByUrl l) : r ∈ l :=
  (dedupByUrl_sublist l.length l (Nat.le_refl _)).subset h

theorem dedupByUrl_nodup_urls (n : Nat) :
    ∀ l : List Row, l.length ≤ n → ((dedupByUrl l).map urlKey).Nodup := by
  induction n with
  | zero =>
    intro l hlen
    have : l = [] := List.length_eq_zero.mp (Nat.le_zero.mp hlen)
    subst this
    exact List.nodup_nil
  | succ n ih =>
    intro l hlen
    cases l with
    | nil => exact List.nodup_nil
    | cons r rest =>
      simp only [List.length_cons] at hlen
      rw [dedupByUrl_cons, List.map_cons, List.nodup_cons]
      have hle := List.length_filter_le (fun r2 => ¬ urlKey r2 = urlKey r) rest
      refine ⟨?_, ih _ (by omega)⟩
      intro hmem
      obtain ⟨r', hr', hurl⟩ := List.mem_map.mp hmem
      have hr'fil := dedupByUrl_mem hr'
      have := (List.mem_filter.mp hr'fil).2
      simp only [decide_eq_true_eq] at this
      exact this hurl

theorem dedupByUrl_complete (n : Nat) :
    ∀ l : List Row, l.length ≤ n →
      ∀ r' ∈ l, urlKey r' ∈ (dedupByUrl l).map urlKey := by
  induction n with
  | zero =>
    intro l hlen r' hr'
    have : l = [] := List.length_eq_zero.mp (Nat.le_zero.mp hlen)
    subst this
    simp at hr'
  | succ n ih =>
    intro l hlen r' hr'
    cases l with
    | nil => simp at hr'
    | cons r rest =>
      simp only [List.length_cons] at hlen
      rw [dedupByUrl_cons, List.map_cons]
      rcases List.mem_cons.mp hr' with rfl | hr'rest
      · exact List.mem_cons_self _ _
      · by_cases hurl : urlKey r' = urlKey r
        · rw [hurl]
          exact List.mem_cons_self _ _
        · have hfil : r' ∈ rest.filter (fun r2 => ¬ urlKey r2 = urlKey r) :=
            List.mem_filter.mpr ⟨hr'rest, by simp [hurl]⟩
          have hle := List.length_filter_le (fun r2 => ¬ urlKey r2 = urlKey r) rest
          exact List.mem_cons_of_mem _ (ih _ (by omega) r' hfil)

theorem filter_decomp (p : α → Bool) :
    ∀ (l a' b' : List α) (r' : α), l.filter p = a' ++ r' :: b' →
      ∃ a b, l = a ++ r' :: b ∧ ∀ y ∈ a, p y = false ∨ y ∈ a' := by
  intro l
  induction l with
  | nil =>
    intro a' b' r' h
    rw [List.filter_nil] at h
    cases a' <;> simp at h
  | cons z t ih =>
    intro a' b' r' h
    by_cases hz : p z
    · rw [List.filter_cons_of_pos hz] at h
      cases a' with
      | nil =>
        simp only [List.nil_append, List.cons.injEq] at h
        obtain ⟨rfl, hb⟩ := h
        exact ⟨[], t, rfl, by simp⟩
      | cons x a'' =>
        simp only [List.cons_append, List.cons.injEq] at h
        obtain ⟨rfl, ht⟩ := h
        obtain ⟨a2, b2, hteq, hcond⟩ := ih a'' b' r' ht
        refine ⟨z :: a2, b2, by simp [hteq], ?_⟩
        intro y hy
        rcases List.mem_cons.mp hy with rfl | hy2
        · exact Or.inr (List.mem_cons_self _ _)
        · rcases hcond y hy2 with hf | hm
          · exact Or.inl hf
          · exact Or.inr (List.mem_cons_of_mem _ hm)
    · rw [List.filter_cons_of_neg hz] at h
      obtain ⟨a2, b2, hteq, hcond⟩ := ih a' b' r' h
      refine ⟨z :: a2, b2, by simp [hteq], ?_⟩
      intro y hy
      rcases List.mem_cons.mp hy with rfl | hy2
      · exact Or.inl (by simpa using hz)
      · exact hcond y hy2

theorem dedupByUrl_first_occurrence (n : Nat) :
    ∀ l : List Row, l.length ≤ n →
      ∀ r' ∈ dedupByUrl l, ∃ a b, l = a ++ r' :: b ∧ urlKey r' ∉ a.map urlKey := by
  induction n with
  | zero =>
    intro l hlen r' hr'
    have : l = [] := List.length_eq_zero.mp (Nat.le_zero.mp hlen)
    subst this
    rw [show dedupByUrl ([] : List Row) = [] from rfl] at hr'
    simp at hr'
  | succ n ih =>
    intro l hlen r' hr'
    cases l with
    | nil =>
      rw [show dedupByUrl ([] : List Row) = [] from rfl] at hr'
      simp at hr'
    | cons r rest =>
      simp only [List.length_cons] at hlen
      rw [dedupByUrl_cons] at hr'
      rcases List.mem_cons.mp hr' with rfl | hr'tail
      · exact ⟨[], rest, rfl, by simp⟩
      · have hle := List.length_filter_le (fun r2 => ¬ urlKey r2 = urlKey r) rest
        obtain ⟨a', b', hfil, hnot⟩ := ih _ (by omega) r' hr'tail
        obtain ⟨a, b, hrest, hcond⟩ := filter_decomp _ rest a' b' r' hfil
        have hr'mem : r' ∈ rest.filter (fun r2 => ¬ urlKey r2 = urlKey r) := by
          rw [hfil]
          simp
        have hr'ne : ¬ urlKey r' = urlKey r := by
          have := (List.mem_filter.mp hr'mem).2
          simpa using this
        refine ⟨r :: a, b, by simp [hrest], ?_⟩
        intro hmem
        rw [List.map_cons, List.mem_cons] at hmem
        rcases hmem with heq | hmem2
        · exact hr'ne heq
        · obtain ⟨y, hy, hyurl⟩ := List.mem_map.mp hmem2
          rcases hcond y hy with hf | hm
          · have hf2 : urlKey y = urlKey r := not_not.mp (of_decide_eq_false hf)
            exact hr'ne (hyurl ▸ hf2)
          · exact hnot (by rw [← hyurl]; exact List.mem_map.mpr ⟨y, hm, rfl⟩)

theorem other_conditions (minLen : Nat) (row : Row)
    (h : categorize_unclean minLen row = "Other") :
    ¬ (pyLower (ansOf row) ∈ (["", "none", "nan"] : List String))
    ∧ ¬ ((ansOf row).length < minLen) := by
  simp only [categorize_unclean] at h
  split_ifs at h with h1 h2 h3
  · exact absurd h (by simp)
  · exact absurd h (by simp)
  · exact absurd h (by simp)
  · exact ⟨h1, h3⟩

theorem categorize_setKey_reason (minLen : Nat) (r : Row) (v : PyVal) :
    categorize_unclean minLen (setKey r "reason" v) = categorize_unclean minLen r := by
  simp only [categorize_unclean, ansOf]
  simp only [rowGet_setKey_ne r "reason" "answer" v (PyVal.vstr "") (by decide),
    rowGet_setKey_ne r "reason" "url" v (PyVal.vstr "") (by decide)]

theorem reasonVal_addReason (minLen : Nat) (r : Row) :
    reasonVal (addReason minLen r) = PyVal.vstr (categorize_unclean minLen r) := by
  unfold reasonVal addReason
  exact rowGet_setKey_same r "reason" _ PyVal.vnan

theorem rowGet_addReason_ne (minLen : Nat) (r : Row) (k : String) (d : PyVal)
    (h : k ≠ "reason") : rowGet (addReason minLen r) k d = rowGet r k d := by
  unfold addReason
  exact rowGet_setKey_ne r "reason" k _ d (fun he => h he.symm)

theorem rowGet_normField_ne (r : Row) (k k' : String) (flag : Bool) (d : PyVal)
    (h : k ≠ k') : rowGet (normField r k flag) k' d = rowGet r k' d := by
  unfold normField
  split
  · exact rowGet_setKey_ne r k k' _ d h
  · rfl

theorem hasKey_normField_ne (r : Row) (k k' : String) (flag : Bool)
    (h : k ≠ k') : hasKey (normField r k flag) k' = hasKey r k' := by
  unfold normField
  split
  · exact hasKey_setKey_ne r k k' _ h
  · rfl

theorem rowGet_normalizeRow_answer_true (qc bc : Bool) (r0 : Row) (d : PyVal) :
    rowGet (normalizeRow qc bc true r0) "answer" d
      = PyVal.vstr (clean_text (pyStr (rowGet r0 "answer" PyVal.vnan))) := by
  unfold normalizeRow
  have hstep : normField (normField (normField r0 "question" qc) "body" bc) "answer" true
      = setKey (normField (normField r0 "question" qc) "body" bc) "answer"
          (PyVal.vstr (clean_text (pyStr
            (rowGet (normField (normField r0 "question" qc) "body" bc) "answer" PyVal.vnan)))) := by
    unfold normField
    rfl
  rw [hstep, rowGet_setKey_same,
    rowGet_normField_ne _ "body" "answer" bc PyVal.vnan (by decide),
    rowGet_normField_ne _ "question" "answer" qc PyVal.vnan (by decide)]

theorem rowGet_normalizeRow_answer_false (qc bc : Bool) (r0 : Row) (d : PyVal) :
    rowGet (normalizeRow qc bc false r0) "answer" d = rowGet r0 "answer" d := by
  unfold normalizeRow
  have hstep : normField (normField (normField r0 "question" qc) "body" bc) "answer" false
      = normField (normField r0 "question" qc) "body" bc := by
    unfold normField
    rfl
  rw [hstep, rowGet_normField_ne _ "body" "answer" bc d (by decide),
    rowGet_normField_ne _ "question" "answer" qc d (by decide)]

theorem hasKey_of_hasCol_false (rows : List Row) (k : String)
    (h : hasCol rows k = false) : ∀ r ∈ rows, hasKey r k = false := by
  unfold hasCol at h
  intro r hr
  rw [List.any_eq_false] at h
  simpa using h r hr

theorem mem_classifiedRows (minLen : Nat) (data : List Row) (r : Row)
    (h : r ∈ classifiedRows minLen data) :
    ∃ r0 ∈ data,
      r = addReason minLen
        (normalizeRow (hasCol data "question") (hasCol data "body")
          (hasCol data "answer") r0) := by
  unfold classifiedRows at h
  obtain ⟨r2, hr2, rfl⟩ := List.mem_map.mp h
  have hr2norm := dedupByUrl_mem hr2
  unfold normalizeStep at hr2norm
  obtain ⟨r0, hr0, rfl⟩ := List.mem_map.mp hr2norm
  exact ⟨r0, hr0, rfl⟩

theorem length_pyStrip_le (l : List Char) : (pyStrip l).length ≤ l.length := by
  unfold pyStrip
  rw [List.length_reverse]
  refine Nat.le_trans (length_dropWhile_le _ _) ?_
  rw [List.length_reverse]
  exact length_dropWhile_le _ _

theorem pyStripStr_length_le (s : String) : (pyStripStr s).length ≤ s.length :=
  length_pyStrip_le s.data

theorem pyLower_ne_empty (s : String) (h : ¬ pyLower s = "") : ¬ s = "" := by
  intro he
  subst he
  exact h rfl

/-- On every row the pipeline actually partitions, both the code's clean
test and the spec's clean test collapse to "the reason column is `Other`". -/
theorem cleanCond_eq_reason_other (minLen : Nat) (data : List Row) (r : Row)
    (h : r ∈ classifiedRows minLen data) :
    cleanCond minLen r = (reasonVal r == PyVal.vstr "Other")
    ∧ cleanCondSpec minLen r = (reasonVal r == PyVal.vstr "Other") := by
  obtain ⟨r0, hr0, hre⟩ := mem_classifiedRows minLen data r h
  have hreason : reasonVal r
      = PyVal.vstr (categorize_unclean minLen
          (normalizeRow (hasCol data "question") (hasCol data "body")
            (hasCol data "answer") r0)) := by
    rw [hre, reasonVal_addReason]
  by_cases hcat : categorize_unclean minLen
      (normalizeRow (hasCol data "question") (hasCol data "body")
        (hasCol data "answer") r0) = "Other"
  · have hbeq : (reasonVal r == PyVal.vstr "Other") = true := by
      rw [hreason, hcat]
      simp
    by_cases hac : hasCol data "answer" = true
    · have hansval : ansVal r
          = PyVal.vstr (clean_text (pyStr (rowGet r0 "answer" PyVal.vnan))) := by
        unfold ansVal
        rw [hre, rowGet_addReason_ne _ _ "answer" PyVal.vnan (by decide), hac,
          rowGet_normalizeRow_answer_true]
      have hansOf : ansOf (normalizeRow (hasCol data "question") (hasCol data "body")
            (hasCol data "answer") r0)
          = pyStripStr (clean_text (pyStr (rowGet r0 "answer" PyVal.vnan))) := by
        unfold ansOf
        rw [hac, rowGet_normalizeRow_answer_true]
        rfl
      obtain ⟨hNA, hTS⟩ := other_conditions minLen _ hcat
      rw [hansOf] at hNA hTS
      have hne : ¬ pyStripStr (clean_text (pyStr (rowGet r0 "answer" PyVal.vnan))) = "" := by
        apply pyLower_ne_empty
        intro he
        exact hNA (by rw [he]; simp)
      have hlen : minLen ≤ (pyStripStr (clean_text (pyStr (rowGet r0 "answer" PyVal.vnan)))).length :=
        Nat.le_of_not_lt hTS
      have hlen2 : minLen ≤ (clean_text (pyStr (rowGet r0 "answer" PyVal.vnan))).length :=
        Nat.le_trans hlen (pyStripStr_length_le _)
      have pyStr_vstr : ∀ s : String, pyStr (PyVal.vstr s) = s := fun s => rfl
      unfold cleanCond cleanCondSpec
      rw [hbeq, hansval]
      constructor
      · simp [py_notna, strStripNeEmpty, strLenGe, pyStr_vstr, hne, hlen2]
      · simp [py_notna, pyStr_vstr, hne, hlen]
    · exfalso
      have hac' : hasCol data "answer" = false := by simpa using hac
      have hkey : hasKey r0 "answer" = false :=
        hasKey_of_hasCol_false data "answer" hac' r0 hr0
      have hget : rowGet (normalizeRow (hasCol data "question") (hasCol data "body")
            (hasCol data "answer") r0) "answer" (PyVal.vstr "")
          = PyVal.vstr "" := by
        rw [hac', rowGet_normalizeRow_answer_false]
        exact rowGet_of_hasKey_false r0 "answer" _ hkey
      have hcat2 : categorize_unclean minLen
          (normalizeRow (hasCol data "question") (hasCol data "body")
            (hasCol data "answer") r0) = "No Answer" := by
        simp only [categorize_unclean, ansOf]
        simp only [hget]
        rw [if_pos (by decide)]
      rw [hcat2] at hcat
      exact absurd hcat (by decide)
  · have hbeq : (reasonVal r == PyVal.vstr "Other") = false := by
      rw [hreason]
      simp [hcat]
    unfold cleanCond cleanCondSpec
    rw [hbeq]
    simp

theorem unclean_reason_ne_other (minLen : Nat) (data : List Row) (r : Row)
    (h : r ∈ (clean_dataset_model minLen data).2) :
    ¬ reasonVal r = PyVal.vstr "Other" := by
  unfold clean_dataset_model partitionStep at h
  have hmem := (List.mem_filter.mp h).1
  have hcond := (List.mem_filter.mp h).2
  have hfalse : cleanCond minLen r = false := by simpa using hcond
  have heq := (cleanCond_eq_reason_other minLen data r hmem).1
  intro hre
  rw [heq, hre] at hfalse
  simp at hfalse

theorem other_mem_clean (minLen : Nat) (data : List Row) (r : Row)
    (h1 : r ∈ classifiedRows minLen data)
    (h2 : reasonVal r = PyVal.vstr "Other") :
    r ∈ (clean_dataset_model minLen data).1 := by
  unfold clean_dataset_model partitionStep
  refine List.mem_filter.mpr ⟨h1, ?_⟩
  rw [(cleanCond_eq_reason_other minLen data r h1).1, h2]
  simp

/-- C3: `clean_text` is idempotent on every string. -/
theorem c3_clean_text_idempotent :
    ∀ s : String, clean_text (clean_text s) = clean_text s :=
  clean_text_idem

/-- C2: the partition step sends every record of the classified,
deduplicated set `S` to exactly one of the two outputs: the outputs cover
`S`, they share no record, and even counted with multiplicity each record's
occurrences split exactly between them. -/
theorem c2_partition_disjoint_exhaustive (minLen : Nat) (S : List Row) :
    (∀ r : Row, r ∈ S ↔
      (r ∈ (partitionStep minLen S).1 ∨ r ∈ (partitionStep minLen S).2))
    ∧ (∀ r : Row,
        ¬ (r ∈ (partitionStep minLen S).1 ∧ r ∈ (partitionStep minLen S).2))
    ∧ (∀ r : Row,
        (partitionStep minLen S).1.count r + (partitionStep minLen S).2.count r
          = S.count r) := by
  unfold partitionStep
  refine ⟨?_, ?_, ?_⟩
  · intro r
    constructor
    · intro hr
      by_cases hc : cleanCond minLen r
      · exact Or.inl (List.mem_filter.mpr ⟨hr, hc⟩)
      · exact Or.inr (List.mem_filter.mpr ⟨hr, by simpa using hc⟩)
    · rintro (h | h) <;> exact (List.mem_filter.mp h).1
  · rintro r ⟨h1, h2⟩
    have hc1 := (List.mem_filter.mp h1).2
    have hc2 := (List.mem_filter.mp h2).2
    simp [hc1] at hc2
  · intro r
    show (S.filter (cleanCond minLen)).count r
      + (S.filter (fun x => ! cleanCond minLen x)).count r = S.count r
    by_cases hc : cleanCond minLen r = true
    · have h1 : (S.filter (cleanCond minLen)).count r = S.count r :=
        List.count_filter hc
      have h2 : (S.filter (fun x => ! cleanCond minLen x)).count r = 0 := by
        rw [List.count_eq_zero]
        intro hmem
        have := (List.mem_filter.mp hmem).2
        simp [hc] at this
      omega
    · have hc' : cleanCond minLen r = false := by simpa using hc
      have h1 : (S.filter (cleanCond minLen)).count r = 0 := by
        rw [List.count_eq_zero]
        intro hmem
        have := (List.mem_filter.mp hmem).2
        simp [hc'] at this
      have h2 : (S.filter (fun x => ! cleanCond minLen x)).count r = S.count r :=
        List.count_filter (by simp [hc'])
      omega

/-- Witness for C2 at a concrete two-record set. -/
theorem c2_witness :
    (partitionStep 15 [[("reason", PyVal.vstr "Other"),
        ("answer", PyVal.vstr "this is a sufficiently long answer text")],
      [("reason", PyVal.vstr "Too Short"), ("answer", PyVal.vstr "short")]]).1.count
        [("reason", PyVal.vstr "Too Short"), ("answer", PyVal.vstr "short")]
      + (partitionStep 15 [[("reason", PyVal.vstr "Other"),
          ("answer", PyVal.vstr "this is a sufficiently long answer text")],
        [("reason", PyVal.vstr "Too Short"), ("answer", PyVal.vstr "short")]]).2.count
        [("reason", PyVal.vstr "Too Short"), ("answer", PyVal.vstr "short")]
      = ([[("reason", PyVal.vstr "Other"),
          ("answer", PyVal.vstr "this is a sufficiently long answer text")],
        [("reason", PyVal.vstr "Too Short"), ("answer", PyVal.vstr "short")]] : List Row).count
        [("reason", PyVal.vstr "Too Short"), ("answer", PyVal.vstr "short")] :=
  (c2_partition_disjoint_exhaustive 15
    [[("reason", PyVal.vstr "Other"),
      ("answer", PyVal.vstr "this is a sufficiently long answer text")],
     [("reason", PyVal.vstr "Too Short"), ("answer", PyVal.vstr "short")]]).2.2
    [("reason", PyVal.vstr "Too Short"), ("answer", PyVal.vstr "short")]

/-- C5: `drop_duplicates(subset=["url"])` keeps the first occurrence of each
distinct url, preserving relative order (the result is a sublist), covering
every url of the input, with pairwise distinct urls, and each kept record is
the first record bearing its url.  On
`[{url:"a"}, {url:"b"}, {url:"a"}]` it returns `[{url:"a"}, {url:"b"}]`. -/
theorem c5_dedup_keeps_first_occurrence :
    dedupByUrl [[("url", PyVal.vstr "a")], [("url", PyVal.vstr "b")],
        [("url", PyVal.vstr "a")]]
      = [[("url", PyVal.vstr "a")], [("url", PyVal.vstr "b")]]
    ∧ ∀ rows : List Row,
        (dedupByUrl rows).Sublist rows
        ∧ ((dedupByUrl rows).map urlKey).Nodup
        ∧ (∀ r ∈ rows, urlKey r ∈ (dedupByUrl rows).map urlKey)
        ∧ (∀ r' ∈ dedupByUrl rows,
            ∃ a b, rows = a ++ r' :: b ∧ urlKey r' ∉ a.map urlKey) :=
  ⟨by decide, fun rows =>
    ⟨dedupByUrl_sublist rows.length rows (Nat.le_refl _),
     dedupByUrl_nodup_urls rows.length rows (Nat.le_refl _),
     dedupByUrl_complete rows.length rows (Nat.le_refl _),
     dedupByUrl_first_occurrence rows.length rows (Nat.le_refl _)⟩⟩

/-- Witness for C5: the url of a dropped later duplicate is still covered by
the kept first occurrence. -/
theorem c5_witness :
    urlKey [("url", PyVal.vstr "a"), ("body", PyVal.vstr "later duplicate")]
      ∈ (dedupByUrl [[("url", PyVal.vstr "a")], [("url", PyVal.vstr "b")],
          [("url", PyVal.vstr "a"), ("body", PyVal.vstr "later duplicate")]]).map urlKey :=
  ((c5_dedup_keeps_first_occurrence).2
    [[("url", PyVal.vstr "a")], [("url", PyVal.vstr "b")],
     [("url", PyVal.vstr "a"), ("body", PyVal.vstr "later duplicate")]]).2.2.1
    [("url", PyVal.vstr "a"), ("body", PyVal.vstr "later duplicate")] (by decide)

/-- C4: over the classified, deduplicated rows the pipeline actually
partitions, the clean output contains exactly the rows satisfying the
spec's test (`reason == Other`, non-null answer, trimmed answer non-empty,
trimmed length ≥ threshold); all other rows land in the unclean output. -/
theorem c4_clean_partition_exact (minLen : Nat) (data : List Row) (r : Row) :
    (r ∈ (clean_dataset_model minLen data).1 ↔
      r ∈ classifiedRows minLen data ∧ cleanCondSpec minLen r = true)
    ∧ (r ∈ (clean_dataset_model minLen data).2 ↔
      r ∈ classifiedRows minLen data ∧ cleanCondSpec minLen r = false) := by
  unfold clean_dataset_model partitionStep
  constructor
  · constructor
    · intro h
      have hmem := (List.mem_filter.mp h).1
      have hcond := (List.mem_filter.mp h).2
      have heq := cleanCond_eq_reason_other minLen data r hmem
      refine ⟨hmem, ?_⟩
      rw [heq.2, ← heq.1]
      exact hcond
    · rintro ⟨hmem, hspec⟩
      have heq := cleanCond_eq_reason_other minLen data r hmem
      refine List.mem_filter.mpr ⟨hmem, ?_⟩
      rw [heq.1, ← heq.2]
      exact hspec
  · constructor
    · intro h
      have hmem := (List.mem_filter.mp h).1
      have hcond := (List.mem_filter.mp h).2
      have heq := cleanCond_eq_reason_other minLen data r hmem
      refine ⟨hmem, ?_⟩
      have hfalse : cleanCond minLen r = false := by simpa using hcond
      rw [heq.2, ← heq.1]
      exact hfalse
    · rintro ⟨hmem, hspec⟩
      have heq := cleanCond_eq_reason_other minLen data r hmem
      refine List.mem_filter.mpr ⟨hmem, ?_⟩
      have : cleanCond minLen r = false := by
        rw [heq.1, ← heq.2]
        exact hspec
      simp [this]

/-- Witness for C4: a concrete long-answer record is in the clean output. -/
theorem c4_witness :
    (classifiedRows 15 [[("url", PyVal.vstr "https://x"), ("question", PyVal.vstr "q"),
        ("answer", PyVal.vstr "this is a sufficiently long answer text")]]).getD 0 []
      ∈ (clean_dataset_model 15 [[("url", PyVal.vstr "https://x"),
          ("question", PyVal.vstr "q"),
          ("answer", PyVal.vstr "this is a sufficiently long answer text")]]).1 :=
  (c4_clean_partition_exact 15
    [[("url", PyVal.vstr "https://x"), ("question", PyVal.vstr "q"),
      ("answer", PyVal.vstr "this is a sufficiently long answer text")]] _).1.mpr
    ⟨by decide, by decide⟩

/-- C6 counterexample: the situation the claim asserts to exist cannot
occur.  In a pipeline run, no record of the unclean output carries reason
`Other`: normalization already stripped the answer, so the partitioner's
length re-check never rejects a record the classifier tagged `Other`. -/
theorem c6_counterexample_no_other_in_unclean :
    ¬ ∃ (minLen : Nat) (data : List Row) (r : Row),
      r ∈ (clean_dataset_model minLen data).2
        ∧ reasonVal r = PyVal.vstr "Other" := by
  rintro ⟨minLen, data, r, h1, h2⟩
  exact unclean_reason_ne_other minLen data r h1 h2

/-- C6 amended: every record the classifier tags `Other` appears in the
clean partition; the unclean output never carries reason `Other`. -/
theorem c6_other_always_clean (minLen : Nat) (data : List Row) (r : Row) :
    (r ∈ classifiedRows minLen data → reasonVal r = PyVal.vstr "Other" →
      r ∈ (clean_dataset_model minLen data).1)
    ∧ (r ∈ (clean_dataset_model minLen data).2 →
      ¬ reasonVal r = PyVal.vstr "Other") :=
  ⟨other_mem_clean minLen data r, unclean_reason_ne_other minLen data r⟩

/-- Witness for C6: in a concrete run, the `Other` record is in clean and
the short record (in unclean) is not tagged `Other`. -/
theorem c6_witness :
    (classifiedRows 15 [[("url", PyVal.vstr "https://x"),
        ("answer", PyVal.vstr "this is a sufficiently long answer text")],
      [("url", PyVal.vstr "https://y"), ("answer", PyVal.vstr "short")]]).getD 0 []
      ∈ (clean_dataset_model 15 [[("url", PyVal.vstr "https://x"),
          ("answer", PyVal.vstr "this is a sufficiently long answer text")],
        [("url", PyVal.vstr "https://y"), ("answer", PyVal.vstr "short")]]).1
    ∧ ¬ reasonVal ((classifiedRows 15 [[("url", PyVal.vstr "https://x"),
          ("answer", PyVal.vstr "this is a sufficiently long answer text")],
        [("url", PyVal.vstr "https://y"), ("answer", PyVal.vstr "short")]]).getD 1 [])
        = PyVal.vstr "Other" :=
  ⟨(c6_other_always_clean 15 [[("url", PyVal.vstr "https://x"),
      ("answer", PyVal.vstr "this is a sufficiently long answer text")],
    [("url", PyVal.vstr "https://y"), ("answer", PyVal.vstr "short")]] _).1
      (by decide) (by decide),
   (c6_other_always_clean 15 [[("url", PyVal.vstr "https://x"),
      ("answer", PyVal.vstr "this is a sufficiently long answer text")],
    [("url", PyVal.vstr "https://y"), ("answer", PyVal.vstr "short")]] _).2
      (by decide)⟩

/-- C7: when the raw input file is absent, `clean_dataset` prints the error
and returns: the file system is untouched (neither output written) and no
exception escapes (the run function is total). -/
theorem c7_missing_input_is_noop (cfg : CleanerConfig) (fs : FileSys)
    (h : fsRead fs (rawPath cfg) = none) :
    clean_dataset_run cfg fs
      = { fs := fs
          console := ["❌ raw_data.json not found. Please run scraper.py first."]
          written := none } := by
  unfold clean_dataset_run
  rw [h]

/-- Witness for C7 on an empty file system. -/
theorem c7_witness :
    fsRead [] (rawPath ⟨"data", "raw_data.json", "clean.csv", "unclean.csv", 15⟩) = none
    ∧ clean_dataset_run ⟨"data", "raw_data.json", "clean.csv", "unclean.csv", 15⟩ []
      = { fs := []
          console := ["❌ raw_data.json not found. Please run scraper.py first."]
          written := none } :=
  ⟨rfl, c7_missing_input_is_noop
    ⟨"data", "raw_data.json", "clean.csv", "unclean.csv", 15⟩ [] rfl⟩

/-- C8: for every input (a null/absent one yields the empty string), the
output of `clean_text` contains no `&\w+;` match, no run of two or more
whitespace characters, and no leading or trailing whitespace. -/
theorem c8_clean_text_guarantees (t : Option String) :
    clean_text_py none = ""
    ∧ (¬ ∃ a w b, (clean_text_py t).data = a ++ '&' :: (w ++ ';' :: b)
        ∧ w ≠ [] ∧ (∀ c ∈ w, isWord c = true))
    ∧ (¬ ∃ a b c d, (clean_text_py t).data = a ++ c :: d :: b
        ∧ c.isWhitespace = true ∧ d.isWhitespace = true)
    ∧ (∀ c, (clean_text_py t).data.head? = some c → c.isWhitespace = false)
    ∧ (∀ c, (clean_text_py t).data.getLast? = some c → c.isWhitespace = false) := by
  refine ⟨rfl, ?_⟩
  cases t with
  | none =>
    have hdata : (clean_text_py none).data = [] := rfl
    refine ⟨?_, ?_, ?_, ?_⟩
    · rintro ⟨a, w, b, heq, hw, hword⟩
      rw [hdata] at heq
      cases a <;> simp at heq
    · rintro ⟨a, b, c, d, heq, hc, hd⟩
      rw [hdata] at heq
      cases a <;> simp at heq
    · intro c hc
      rw [hdata] at hc
      simp at hc
    · intro c hc
      rw [hdata] at hc
      simp at hc
  | some s =>
    obtain ⟨hEnt, hws, hh, hl⟩ := clean_text_props s
    refine ⟨?_, ?_, hh, hl⟩
    · rintro ⟨a, w, b, heq, hw, hword⟩
      exact hEnt ⟨a, w, b, hw, hword, heq⟩
    · rintro ⟨a, b, c, d, heq, hc, hd⟩
      exact wsOk_no_double _ hws a b c d heq ⟨hc, hd⟩

/-- Witness for C8: the head of a concrete cleaned string is the
non-whitespace character `'a'`. -/
theorem c8_witness :
    (clean_text_py (some " a&nbsp;b   c ")).data.head? = some 'a'
    ∧ ('a' : Char).isWhitespace = false :=
  ⟨by decide, (c8_clean_text_guarantees (some " a&nbsp;b   c ")).2.2.2.1 'a' (by decide)⟩

/-- Witness for C1: the concrete short-answer record satisfies exactly the
`Too Short` characterization. -/
theorem c1_witness :
    ¬ noAnswerCond [("url", PyVal.vstr "https://x"), ("answer", PyVal.vstr "short"),
        ("question", PyVal.vstr "q")]
    ∧ ¬ malformedCond [("url", PyVal.vstr "https://x"), ("answer", PyVal.vstr "short"),
        ("question", PyVal.vstr "q")]
    ∧ tooShortCond 15 [("url", PyVal.vstr "https://x"), ("answer", PyVal.vstr "short"),
        ("question", PyVal.vstr "q")] :=
  ((c1_classifier_first_match 15
    [("url", PyVal.vstr "https://x"), ("answer", PyVal.vstr "short"),
     ("question", PyVal.vstr "q")]).1.2.2.2.1).mp (by decide)

end Cleaner

